import Mathlib

/-!
Shallow embedding of src/network_tcp_port_scan.py (a configurable TCP port
scanner) and verification of its specification.

Modelling conventions:
- Python strings are modelled as `List Char` (`PyStr`); Python's string
  operations (split, strip, comparison) are modelled character by character.
- Python `int()` is modelled by `pyInt?` (optional sign followed by decimal
  digits, surrounding whitespace stripped); failure (`ValueError`) is `none`.
- A Python `set` of ints followed by `sorted(...)` is modelled by `dedup`
  followed by insertion sort; the resulting list is the unique sorted
  duplicate-free enumeration of the set's members.
- Network I/O is abstracted: the outcome of one `socket.connect_ex` call is a
  `ProbeOutcome` value, and the nondeterministic order in which
  `concurrent.futures.as_completed` yields finished probes is an explicit
  `completionOrder` argument (a permutation of the task list).
-/

/-- Python strings, modelled as lists of characters. -/
abbrev PyStr := List Char

/-- Coerce a Lean string literal to the `PyStr` model. -/
def chars (s : String) : PyStr := s.data

/-- The whitespace characters stripped by Python's `str.strip()`
(ASCII subset). -/
def isPySpace (c : Char) : Bool :=
  c = ' ' || c = '\t' || c = '\n' || c = '\r' || c = '\x0b' || c = '\x0c'

/-- Python `str.strip()`: drop whitespace from both ends. -/
def pyStrip (cs : PyStr) : PyStr :=
  ((cs.dropWhile isPySpace).reverse.dropWhile isPySpace).reverse

/-- Numeric value of a decimal digit character. -/
def digitVal (c : Char) : Nat := c.toNat - 48

/-- Value of a string of decimal digits (most significant first). -/
def digitsVal (ds : PyStr) : Nat := ds.foldl (fun a c => 10 * a + digitVal c) 0

/-- Parse a nonempty all-digit string as a natural number. -/
def parsePyNat? (ds : PyStr) : Option Nat :=
  if ds ≠ [] ∧ ds.all Char.isDigit then some (digitsVal ds) else none

/-- Python `int(token)`: strip whitespace, then an optional sign followed by
decimal digits. `none` models the `ValueError` raised on anything else. -/
def pyInt? (cs : PyStr) : Option Int :=
  match pyStrip cs with
  | [] => none
  | c :: rest =>
    if c = '-' then (parsePyNat? rest).map (fun n => -(n : Int))
    else if c = '+' then (parsePyNat? rest).map (fun n => (n : Int))
    else (parsePyNat? (c :: rest)).map (fun n => (n : Int))

/-- Python `s.split(sep)` for a one-character separator: the list of chunks
between occurrences of `sep` (empty chunks included; splitting the empty
string gives one empty chunk). -/
def splitOnChar (sep : Char) : PyStr → List PyStr
  | [] => [[]]
  | c :: cs =>
    if c = sep then [] :: splitOnChar sep cs
    else
      match splitOnChar sep cs with
      | [] => [[c]]
      | t :: ts => (c :: t) :: ts

/-- Python `list(range(lo, hi + 1))` over the integers. -/
def inclRange (lo hi : Int) : List Int :=
  (List.range (hi + 1 - lo).toNat).map (fun i => lo + i)

/-- The integer values contributed by one (stripped, nonempty) token of the
port specification, following `parse_ports`: a token containing `-` is split
at its first `-` into two `int()`s, swapped if reversed, and denotes the
inclusive range; any other token is a single `int()`. `none` models the
`ValueError` raised by `int()` on a malformed token. -/
def tokVal? (tok : PyStr) : Option (List Int) :=
  if tok.contains '-' then
    match pyInt? (tok.takeWhile (fun c => c ≠ '-')),
          pyInt? ((tok.dropWhile (fun c => c ≠ '-')).tail) with
    | some lo, some hi =>
        if lo > hi then some (inclRange hi lo) else some (inclRange lo hi)
    | _, _ => none
  else (pyInt? tok).map (fun v => [v])

/-- Accumulate the values of a token list, failing if any token fails. -/
def collectVals : List PyStr → Option (List Int)
  | [] => some []
  | t :: ts =>
    match tokVal? t, collectVals ts with
    | some vs, some rest => some (vs ++ rest)
    | _, _ => none

/-- The bound check of `parse_ports`'s final line: `0 < p <= 65535`. -/
def portInBounds (v : Int) : Bool := decide (0 < v) && decide (v ≤ 65535)

/-- The final line of `parse_ports`: `sorted(p for p in ports if
0 < p <= 65535)` where `ports` is a set. The set is modelled by `dedup`,
and `sorted` by insertion sort; surviving values are positive, so they are
returned as naturals. -/
def postprocessPorts (vals : List Int) : List Nat :=
  List.insertionSort (fun a b => a ≤ b) (((vals.filter portInBounds).map Int.toNat).dedup)

/-- `parse_ports` after tokenisation: collect every token's values, then
filter, deduplicate and sort. -/
def parsePortsTokens (toks : List PyStr) : Option (List Nat) :=
  (collectVals toks).map postprocessPorts

/-- The strip-and-drop-empty step of `parse_ports`'s tokenisation:
`[p.strip() for p in parts if p.strip()]`. -/
def stripFilter (toks : List PyStr) : List PyStr :=
  (toks.map pyStrip).filter (fun t => t ≠ [])

/-- The tokenisation line of `parse_ports`:
`[p.strip() for p in ports_str.split(",") if p.strip()]`. -/
def activeToks (cs : PyStr) : List PyStr :=
  stripFilter (splitOnChar ',' cs)

/-- `parse_ports` from src/network_tcp_port_scan.py: parse a port
specification string such as `22,80,8000-8010` into a sorted duplicate-free
list of ports in `(0, 65535]`; `none` models the `ValueError` raised when a
token is not parseable. -/
def parse_ports (cs : PyStr) : Option (List Nat) :=
  parsePortsTokens (activeToks cs)

/-- The filter of `load_hosts_from_file`: keep a (stripped) line unless it is
empty or starts with `#`. -/
def keepHostLine : PyStr → Bool
  | [] => false
  | c :: _ => c ≠ '#'

/-- `load_hosts_from_file` from src/network_tcp_port_scan.py, applied to the
file's content: one host per line, lines stripped, empty lines and `#`
comment lines skipped, order preserved. -/
def load_hosts_from_file (content : PyStr) : List PyStr :=
  ((splitOnChar '\n' content).map pyStrip).filter keepHostLine

/-- The character of a decimal digit. -/
def decDigit (d : Nat) : Char :=
  match d with
  | 0 => '0' | 1 => '1' | 2 => '2' | 3 => '3' | 4 => '4'
  | 5 => '5' | 6 => '6' | 7 => '7' | 8 => '8' | _ => '9'

/-- Decimal digit string of `n`, computed with structural fuel (the fuel
`n + 1` always suffices since a number is larger than its digit count). -/
def natToDigits : Nat → Nat → PyStr
  | 0, _ => []
  | fuel + 1, n =>
    if n < 10 then [decDigit n]
    else natToDigits fuel (n / 10) ++ [decDigit (n % 10)]

/-- Python `str(n)` for a natural number: its decimal representation. -/
def pyStrNat (n : Nat) : PyStr := natToDigits (n + 1) n

/-- Python `str(ipaddress.IPv4Address(a))`: dotted-quad decimal form of the
32-bit address `a`. -/
def ipv4Str (a : Nat) : PyStr :=
  pyStrNat (a / 16777216 % 256) ++ '.' ::
    (pyStrNat (a / 65536 % 256) ++ '.' ::
      (pyStrNat (a / 256 % 256) ++ '.' :: pyStrNat (a % 256)))

/-- One octet of an IPv4 literal as accepted by `ipaddress.IPv4Address`:
decimal, at most `255`, no leading zeros. -/
def ipOctet? (t : PyStr) : Option Nat :=
  match parsePyNat? t with
  | some n =>
    if n ≤ 255 ∧ (t.length = 1 ∨ t.head? ≠ some '0') then some n else none
  | none => none

/-- `int(ipaddress.IPv4Address(cs))`: parse a dotted-quad IPv4 literal to its
32-bit numeric value; `none` models `AddressValueError`. -/
def ipv4Parse? (cs : PyStr) : Option Nat :=
  match splitOnChar '.' cs with
  | [a, b, c, d] =>
    match ipOctet? a, ipOctet? b, ipOctet? c, ipOctet? d with
    | some w, some x, some y, some z =>
        some (((w * 256 + x) * 256 + y) * 256 + z)
    | _, _, _, _ => none
  | _ => none

/-- `expand_ip_range` from src/network_tcp_port_scan.py: parse both
endpoints as IPv4 addresses, swap if the start is greater than the end, and
enumerate every address of the inclusive interval in ascending order. `none`
models the `AddressValueError` on unparseable literals. -/
def expand_ip_range (start_ip end_ip : PyStr) : Option (List PyStr) :=
  match ipv4Parse? start_ip, ipv4Parse? end_ip with
  | some s, some e =>
    if s > e then some ((List.range' e (s + 1 - e)).map ipv4Str)
    else some ((List.range' s (e + 1 - s)).map ipv4Str)
  | _, _ => none

/-- The network address of the block containing `a` with prefix length `p`:
`ipaddress.ip_network(..., strict=False)` masks the host bits. -/
def networkAddr (a p : Nat) : Nat := a - a % 2 ^ (32 - p)

/-- The number of addresses in a block of prefix length `p`. -/
def blockSize (p : Nat) : Nat := 2 ^ (32 - p)

/-- The broadcast address of the block containing `a`. -/
def broadcastAddr (a p : Nat) : Nat := networkAddr a p + blockSize p - 1

/-- Every address of the block containing `a`, in ascending order. -/
def blockAddrs (a p : Nat) : List Nat :=
  List.range' (networkAddr a p) (blockSize p)

/-- `IPv4Network.hosts()`: all addresses of the block that belong to the
network except the network and broadcast addresses themselves; for the
degenerate `/31` and `/32` blocks every address is a host. -/
def netHosts (a p : Nat) : List Nat :=
  if p ≤ 30 then
    (blockAddrs a p).filter
      (fun x => !decide (x = networkAddr a p) && !decide (x = broadcastAddr a p))
  else blockAddrs a p

/-- `expand_network` from src/network_tcp_port_scan.py, over the numeric
(address, prefix) pair denoted by a CIDR string parsed in non-strict mode:
the dotted-quad strings of the block's usable hosts. -/
def expand_network (a p : Nat) : List PyStr := (netHosts a p).map ipv4Str

/-- The outcome of one probe's socket interaction: `connect_ex` returned an
error code (`0` means the connection was established), or an exception was
raised (timeout, resolution failure, ...). -/
inductive ProbeOutcome where
  | connErr (code : Int) : ProbeOutcome
  | exn : ProbeOutcome
deriving DecidableEq

/-- `check_tcp_port` from src/network_tcp_port_scan.py, as a function of the
probe's socket outcome: `True` exactly when `connect_ex` returned `0`; any
raised exception is caught and yields `False`. -/
def check_tcp_port (outcome : ProbeOutcome) : Bool :=
  match outcome with
  | .connErr code => code == 0
  | .exn => false

/-- The task-generation loop of `scan_targets`: `for h in hosts: for p in
ports: tasks.append((h, p))`. -/
def scanTasks (hosts : List PyStr) (ports : List Nat) : List (PyStr × Nat) :=
  hosts.flatMap (fun h => ports.map (fun p => (h, p)))

/-- `scan_targets` from src/network_tcp_port_scan.py (with `ping_first`
off): build the task list, return `[]` immediately when it is empty (before
any worker is spawned), and otherwise append to `open_list` each task whose
probe returned `True`, in the order `as_completed` yields the finished
futures. `isOpen` gives each probe's boolean outcome and `completionOrder`
is the completion order, a permutation of the task list. -/
def scan_targets (hosts : List PyStr) (ports : List Nat)
    (isOpen : PyStr → Nat → Bool) (completionOrder : List (PyStr × Nat)) :
    List (PyStr × Nat) :=
  if scanTasks hosts ports = [] then []
  else completionOrder.filter (fun t => isOpen t.1 t.2)

/-- `save_results` from src/network_tcp_port_scan.py, at the level of the
emitted records: for `fmt = "csv"` the data rows after the header, and for
`fmt = "json"` the array of records, are exactly the input pairs in input
order; any other format raises `ValueError`, modelled by `none`. -/
def save_results (open_list : List (PyStr × Nat)) (fmt : PyStr) :
    Option (List (PyStr × Nat)) :=
  if fmt = chars "csv" then some open_list
  else if fmt = chars "json" then some open_list
  else none

/-- Python's ordering on `(host, port)` tuples: lexicographic, strings
compared by code points. -/
def pairLe (x y : PyStr × Nat) : Prop :=
  x.1 < y.1 ∨ (x.1 = y.1 ∧ x.2 ≤ y.2)

instance : DecidableRel pairLe := fun x y =>
  inferInstanceAs (Decidable (x.1 < y.1 ∨ (x.1 = y.1 ∧ x.2 ≤ y.2)))

/-- The console listing of `main`: `for host, port in sorted(open_list)`.
Python's `sorted` is modelled by insertion sort; over the antisymmetric
total order on tuples both produce the unique sorted permutation. -/
def consoleListing (open_list : List (PyStr × Nat)) : List (PyStr × Nat) :=
  List.insertionSort pairLe open_list

/-- Python `",".join(tokens)` for a one-character separator. -/
def joinSep (sep : Char) : List PyStr → PyStr
  | [] => []
  | [t] => t
  | t :: t' :: ts => t ++ sep :: joinSep sep (t' :: ts)

instance : IsTotal (PyStr × Nat) pairLe where
  total x y := by
    rcases lt_trichotomy x.1 y.1 with h | h | h
    · exact Or.inl (Or.inl h)
    · rcases Nat.le_total x.2 y.2 with h2 | h2
      · exact Or.inl (Or.inr ⟨h, h2⟩)
      · exact Or.inr (Or.inr ⟨h.symm, h2⟩)
    · exact Or.inr (Or.inl h)

instance : IsTrans (PyStr × Nat) pairLe where
  trans x y z hxy hyz := by
    rcases hxy with h1 | ⟨e1, l1⟩
    · rcases hyz with h2 | ⟨e2, _⟩
      · exact Or.inl (lt_trans h1 h2)
      · exact Or.inl (e2 ▸ h1)
    · rcases hyz with h2 | ⟨e2, l2⟩
      · exact Or.inl (e1 ▸ h2)
      · exact Or.inr ⟨e1.trans e2, Nat.le_trans l1 l2⟩

/-! ### String-level helper lemmas -/

theorem splitOnChar_ne_nil (sep : Char) (cs : PyStr) : splitOnChar sep cs ≠ [] := by
  induction cs with
  | nil => simp [splitOnChar]
  | cons c cs ih =>
    by_cases h : c = sep
    · simp [splitOnChar, h]
    · simp only [splitOnChar, if_neg h]
      cases hsc : splitOnChar sep cs with
      | nil => simp
      | cons t ts => simp

theorem dropWhile_eq_self_of_not (p : Char → Bool) (l : PyStr)
    (h : ∀ c ∈ l, p c = false) : l.dropWhile p = l := by
  cases l with
  | nil => rfl
  | cons c cs => simp [List.dropWhile_cons, h c (List.mem_cons_self c cs)]

theorem pyStrip_eq_self (cs : PyStr) (h : ∀ c ∈ cs, isPySpace c = false) :
    pyStrip cs = cs := by
  unfold pyStrip
  rw [dropWhile_eq_self_of_not _ _ h,
    dropWhile_eq_self_of_not _ _ (fun c hc => h c (List.mem_reverse.1 hc)),
    List.reverse_reverse]

theorem decDigit_isDigit (d : Nat) (h : d < 10) : (decDigit d).isDigit = true := by
  interval_cases d <;> decide

theorem digitVal_decDigit (d : Nat) (h : d < 10) : digitVal (decDigit d) = d := by
  interval_cases d <;> decide

theorem isDigit_ne (c d : Char) (h : c.isDigit = true) (hd : d.isDigit = false) :
    c ≠ d := by
  rintro rfl; rw [h] at hd; cases hd

theorem isPySpace_eq_false_of_isDigit (c : Char) (h : c.isDigit = true) :
    isPySpace c = false := by
  have h1 : c ≠ ' ' := isDigit_ne c ' ' h (by decide)
  have h2 : c ≠ '\t' := isDigit_ne c '\t' h (by decide)
  have h3 : c ≠ '\n' := isDigit_ne c '\n' h (by decide)
  have h4 : c ≠ '\r' := isDigit_ne c '\r' h (by decide)
  have h5 : c ≠ '\x0b' := isDigit_ne c '\x0b' h (by decide)
  have h6 : c ≠ '\x0c' := isDigit_ne c '\x0c' h (by decide)
  simp [isPySpace, h1, h2, h3, h4, h5, h6]

theorem pyStrip_eq_self_of_digits (cs : PyStr) (h : cs.all Char.isDigit = true) :
    pyStrip cs = cs :=
  pyStrip_eq_self cs fun c hc =>
    isPySpace_eq_false_of_isDigit c (List.all_eq_true.1 h c hc)

theorem digitsVal_append_singleton (ds : PyStr) (c : Char) :
    digitsVal (ds ++ [c]) = 10 * digitsVal ds + digitVal c := by
  simp [digitsVal, List.foldl_append]

theorem natToDigits_spec (fuel : Nat) : ∀ n, n < fuel →
    natToDigits fuel n ≠ [] ∧ (natToDigits fuel n).all Char.isDigit = true ∧
      digitsVal (natToDigits fuel n) = n := by
  induction fuel with
  | zero => intro n h; omega
  | succ fuel ih =>
    intro n h
    by_cases h10 : n < 10
    · refine ⟨by simp [natToDigits, h10], ?_, ?_⟩
      · simp [natToDigits, h10, decDigit_isDigit n h10]
      · simp [natToDigits, h10, digitsVal, digitVal_decDigit n h10]
    · have hn0 : 0 < n := by omega
      have hd : n / 10 < n := Nat.div_lt_self hn0 (by omega)
      have hdf : n / 10 < fuel := by omega
      obtain ⟨hne, hall, hval⟩ := ih (n / 10) hdf
      have hm : n % 10 < 10 := Nat.mod_lt n (by omega)
      refine ⟨by simp [natToDigits, h10], ?_, ?_⟩
      · simp [natToDigits, h10, List.all_append, hall, decDigit_isDigit _ hm]
      · rw [show natToDigits (fuel + 1) n
            = natToDigits fuel (n / 10) ++ [decDigit (n % 10)] by
              simp [natToDigits, h10],
          digitsVal_append_singleton, hval, digitVal_decDigit _ hm]
        omega

theorem pyStrNat_ne_nil (n : Nat) : pyStrNat n ≠ [] :=
  (natToDigits_spec (n + 1) n (by omega)).1

theorem pyStrNat_all_digits (n : Nat) : (pyStrNat n).all Char.isDigit = true :=
  (natToDigits_spec (n + 1) n (by omega)).2.1

theorem digitsVal_pyStrNat (n : Nat) : digitsVal (pyStrNat n) = n :=
  (natToDigits_spec (n + 1) n (by omega)).2.2

/-! ### Token-level helper lemmas -/

theorem pyInt?_of_digits (ds : PyStr) (h : ds ≠ []) (hall : ds.all Char.isDigit = true) :
    pyInt? ds = some ((digitsVal ds : Nat) : Int) := by
  have hstrip : pyStrip ds = ds := pyStrip_eq_self_of_digits ds hall
  cases ds with
  | nil => exact absurd rfl h
  | cons c rest =>
    have hc : c.isDigit = true := List.all_eq_true.1 hall c (List.mem_cons_self c rest)
    have hc1 : c ≠ '-' := isDigit_ne c '-' hc (by decide)
    have hc2 : c ≠ '+' := isDigit_ne c '+' hc (by decide)
    unfold pyInt?
    rw [hstrip]
    simp [hc1, hc2, parsePyNat?, hall]

theorem tokVal?_of_digits (ds : PyStr) (h : ds ≠ []) (hall : ds.all Char.isDigit = true) :
    tokVal? ds = some [((digitsVal ds : Nat) : Int)] := by
  have hnm : '-' ∉ ds := fun hm => absurd (List.all_eq_true.1 hall '-' hm) (by decide)
  have hcont : ds.contains '-' = false := by simp [hnm]
  simp only [tokVal?, hcont, Bool.false_eq_true, if_false]
  simp [pyInt?_of_digits ds h hall]

theorem collectVals_eq_none (ts : List PyStr) :
    collectVals ts = none ↔ ∃ t ∈ ts, tokVal? t = none := by
  induction ts with
  | nil => simp [collectVals]
  | cons t ts ih =>
    cases h1 : tokVal? t with
    | none =>
      simp only [collectVals, h1]
      exact iff_of_true (by trivial) ⟨t, List.mem_cons_self t ts, h1⟩
    | some vs =>
      cases h2 : collectVals ts with
      | none =>
        simp only [collectVals, h1, h2]
        refine iff_of_true (by trivial) ?_
        obtain ⟨u, hu, hnu⟩ := ih.1 h2
        exact ⟨u, List.mem_cons_of_mem t hu, hnu⟩
      | some rest =>
        simp only [collectVals, h1, h2]
        constructor
        · intro h; cases h
        · rintro ⟨u, hu, hnu⟩
          rcases List.mem_cons.1 hu with rfl | hu'
          · rw [h1] at hnu; cases hnu
          · have : collectVals ts = none := ih.2 ⟨u, hu', hnu⟩
            rw [h2] at this; cases this

theorem collectVals_append (as bs : List PyStr) :
    collectVals (as ++ bs) =
      Option.bind (collectVals as) (fun xs => (collectVals bs).map (fun ys => xs ++ ys)) := by
  induction as with
  | nil =>
    cases h : collectVals bs <;> simp [collectVals, h]
  | cons t ts ih =>
    simp only [List.cons_append, collectVals, List.append_eq]
    rw [ih]
    cases h1 : tokVal? t <;> cases h2 : collectVals ts <;> cases h3 : collectVals bs <;>
      simp [h1, h2, h3]

/-! ### Postprocessing lemmas -/

theorem portInBounds_iff (v : Int) : portInBounds v = true ↔ 0 < v ∧ v ≤ 65535 := by
  simp [portInBounds]

theorem postprocessPorts_sorted (vals : List Int) :
    List.Sorted (fun a b => a ≤ b) (postprocessPorts vals) :=
  List.sorted_insertionSort _ _

theorem postprocessPorts_nodup (vals : List Int) : (postprocessPorts vals).Nodup :=
  (List.perm_insertionSort _ _).symm.nodup (List.nodup_dedup _)

theorem mem_postprocessPorts (vals : List Int) (n : Nat) :
    n ∈ postprocessPorts vals ↔ ((n : Int) ∈ vals ∧ 0 < n ∧ n ≤ 65535) := by
  unfold postprocessPorts
  rw [(List.perm_insertionSort _ _).mem_iff, List.mem_dedup, List.mem_map]
  constructor
  · rintro ⟨v, hv, rfl⟩
    rw [List.mem_filter] at hv
    obtain ⟨hvv, hb⟩ := hv
    rw [portInBounds_iff] at hb
    have he : ((v.toNat : Nat) : Int) = v := Int.toNat_of_nonneg (le_of_lt hb.1)
    refine ⟨he ▸ hvv, ?_, ?_⟩ <;> omega
  · rintro ⟨hin, h1, h2⟩
    refine ⟨(n : Int), List.mem_filter.2 ⟨hin, ?_⟩, by simp⟩
    rw [portInBounds_iff]
    omega

theorem postprocessPorts_congr (v1 v2 : List Int)
    (h : v1.filter portInBounds = v2.filter portInBounds) :
    postprocessPorts v1 = postprocessPorts v2 := by
  unfold postprocessPorts
  rw [h]

theorem postprocessPorts_ext (v1 v2 : List Int) (h : ∀ v, v ∈ v1 ↔ v ∈ v2) :
    postprocessPorts v1 = postprocessPorts v2 := by
  refine List.eq_of_perm_of_sorted ?_ (postprocessPorts_sorted v1) (postprocessPorts_sorted v2)
  refine (List.perm_ext_iff_of_nodup (postprocessPorts_nodup v1) (postprocessPorts_nodup v2)).2 ?_
  intro n
  rw [mem_postprocessPorts, mem_postprocessPorts, h]

theorem postprocessPorts_canonical (l : List Nat)
    (hs : List.Sorted (fun a b => a ≤ b) l) (hn : l.Nodup)
    (hb : ∀ n ∈ l, 0 < n ∧ n ≤ 65535) :
    postprocessPorts (l.map (Nat.cast : Nat → Int)) = l := by
  refine List.eq_of_perm_of_sorted ?_ (postprocessPorts_sorted _) hs
  refine (List.perm_ext_iff_of_nodup (postprocessPorts_nodup _) hn).2 ?_
  intro n
  rw [mem_postprocessPorts]
  constructor
  · rintro ⟨hin, h1, h2⟩
    simp only [List.mem_map] at hin
    obtain ⟨m, hm, he⟩ := hin
    have hmn : m = n := by exact_mod_cast he
    rwa [hmn] at hm
  · intro hn'
    exact ⟨List.mem_map_of_mem _ hn', (hb n hn').1, (hb n hn').2⟩

theorem parse_ports_invariant (cs : PyStr) (l : List Nat) (h : parse_ports cs = some l) :
    List.Sorted (fun a b => a ≤ b) l ∧ l.Nodup ∧ ∀ n ∈ l, 0 < n ∧ n ≤ 65535 := by
  unfold parse_ports parsePortsTokens at h
  cases hc : collectVals (activeToks cs) with
  | none => rw [hc] at h; cases h
  | some vals =>
    rw [hc] at h
    have hl : postprocessPorts vals = l := by
      simpa using h
    subst hl
    exact ⟨postprocessPorts_sorted _, postprocessPorts_nodup _,
      fun n hn => ((mem_postprocessPorts _ _).1 hn).2⟩

/-! ### Join/split round-trip lemmas -/

theorem splitOnChar_of_not_mem (sep : Char) (cs : PyStr) (h : sep ∉ cs) :
    splitOnChar sep cs = [cs] := by
  induction cs with
  | nil => rfl
  | cons c cs ih =>
    have hc : c ≠ sep := fun e => h (e ▸ List.mem_cons_self c cs)
    have hcs : sep ∉ cs := fun hm => h (List.mem_cons_of_mem c hm)
    simp only [splitOnChar, if_neg hc, ih hcs]

theorem splitOnChar_append_cons (sep : Char) (t rest : PyStr) (h : sep ∉ t) :
    splitOnChar sep (t ++ sep :: rest) = t :: splitOnChar sep rest := by
  induction t with
  | nil => simp [splitOnChar]
  | cons c t ih =>
    have hc : c ≠ sep := fun e => h (e ▸ List.mem_cons_self c t)
    have ht : sep ∉ t := fun hm => h (List.mem_cons_of_mem c hm)
    simp only [List.cons_append, splitOnChar, if_neg hc, List.append_eq, ih ht]

theorem splitOnChar_joinSep (sep : Char) (toks : List PyStr) (hne : toks ≠ [])
    (h : ∀ t ∈ toks, sep ∉ t) : splitOnChar sep (joinSep sep toks) = toks := by
  induction toks with
  | nil => exact absurd rfl hne
  | cons t ts ih =>
    cases ts with
    | nil =>
      exact splitOnChar_of_not_mem sep t (h t (List.mem_cons_self t []))
    | cons t' ts' =>
      have h1 : sep ∉ t := h t (List.mem_cons_self t (t' :: ts'))
      have h2 : ∀ u ∈ t' :: ts', sep ∉ u := fun u hu => h u (List.mem_cons_of_mem t hu)
      rw [show joinSep sep (t :: t' :: ts') = t ++ sep :: joinSep sep (t' :: ts') from rfl,
        splitOnChar_append_cons sep t _ h1, ih (by simp) h2]

theorem stripFilter_of_digits (toks : List PyStr)
    (h : ∀ t ∈ toks, t ≠ [] ∧ t.all Char.isDigit = true) : stripFilter toks = toks := by
  unfold stripFilter
  rw [List.map_congr_left (fun t ht => pyStrip_eq_self_of_digits t (h t ht).2),
    List.map_id']
  exact List.filter_eq_self.2 (fun t ht => by simpa using (h t ht).1)

theorem collectVals_map_pyStrNat (l : List Nat) :
    collectVals (l.map pyStrNat) =
      some (l.map (Nat.cast : Nat → Int)) := by
  induction l with
  | nil => rfl
  | cons n l ih =>
    simp only [List.map_cons, collectVals, ih,
      tokVal?_of_digits (pyStrNat n) (pyStrNat_ne_nil n) (pyStrNat_all_digits n),
      digitsVal_pyStrNat]
    rfl

/-! ### Claim theorems -/

/-- C9: if the task universe is empty (empty host list or empty port set),
`scan_targets` returns an empty open-pairs result immediately through its
early return, before any worker pool is created; this is a normal
completion, not an error. -/
theorem scan_targets_empty_universe (hosts : List PyStr) (ports : List Nat)
    (isOpen : PyStr → Nat → Bool) (order : List (PyStr × Nat))
    (h : hosts = [] ∨ ports = []) :
    scan_targets hosts ports isOpen order = [] := by
  have ht : scanTasks hosts ports = [] := by
    rcases h with rfl | rfl <;> simp [scanTasks]
  simp [scan_targets, ht]

/-- Witness for C9 at a concrete input. -/
theorem scan_targets_empty_universe_witness :
    scan_targets [] [22, 80] (fun _ _ => false) [] = [] :=
  scan_targets_empty_universe [] [22, 80] (fun _ _ => false) [] (Or.inl rfl)

/-- C4: `check_tcp_port` is a total boolean function of the probe outcome —
an established connection (`connect_ex` returning `0`) yields `True`, every
failure, including any raised exception, yields `False` — and `scan_targets`
retains exactly the tasks whose probe returned `True`, so one failing probe
never aborts the run. -/
theorem check_tcp_port_total_and_filtering :
    (∀ code, check_tcp_port (.connErr code) = true ↔ code = 0) ∧
    check_tcp_port .exn = false ∧
    (∀ o, check_tcp_port o = true ↔ o = .connErr 0) ∧
    (∀ (hosts : List PyStr) (ports : List Nat) (env : PyStr → Nat → ProbeOutcome)
        (order : List (PyStr × Nat)),
      List.Perm order (scanTasks hosts ports) →
      scan_targets hosts ports (fun h p => check_tcp_port (env h p)) order =
        order.filter (fun t => check_tcp_port (env t.1 t.2)) ∧
      ∀ t ∈ scan_targets hosts ports (fun h p => check_tcp_port (env h p)) order,
        check_tcp_port (env t.1 t.2) = true) := by
  refine ⟨?_, rfl, ?_, ?_⟩
  · intro code; simp [check_tcp_port]
  · intro o
    cases o with
    | connErr code => simp [check_tcp_port]
    | exn => simp [check_tcp_port]
  · intro hosts ports env order hperm
    have heq : scan_targets hosts ports (fun h p => check_tcp_port (env h p)) order =
        order.filter (fun t => check_tcp_port (env t.1 t.2)) := by
      unfold scan_targets
      by_cases hts : scanTasks hosts ports = []
      · rw [if_pos hts]
        have ho : order = [] := (hts ▸ hperm).eq_nil
        simp [ho]
      · rw [if_neg hts]
    refine ⟨heq, ?_⟩
    intro t htmem
    rw [heq, List.mem_filter] at htmem
    exact htmem.2

/-- Witness for C4 at a concrete input. -/
theorem check_tcp_port_total_and_filtering_witness :
    scan_targets [chars "h"] [80]
      (fun h p => check_tcp_port ((fun _ _ => ProbeOutcome.connErr 0) h p))
      [(chars "h", 80)] =
      List.filter
        (fun t => check_tcp_port ((fun _ _ => ProbeOutcome.connErr 0) t.1 t.2))
        [(chars "h", 80)] :=
  (check_tcp_port_total_and_filtering.2.2.2 [chars "h"] [80]
    (fun _ _ => ProbeOutcome.connErr 0) [(chars "h", 80)] (by decide)).1

/-- C5: for every valid IPv4 CIDR input with prefix length at most 30,
`expand_network` returns the block's addresses with the network and
broadcast addresses excluded, so the result has length
`2 ^ (32 - prefix) - 2`. -/
theorem expand_network_host_count (a p : Nat) (ha : a < 2 ^ 32) (hp : p ≤ 30) :
    (expand_network a p).length = 2 ^ (32 - p) - 2 := by
  unfold expand_network
  rw [List.length_map]
  unfold netHosts
  rw [if_pos hp]
  have hsize : 4 ≤ blockSize p := by
    have h2 : 2 ≤ 32 - p := by omega
    calc (4 : Nat) = 2 ^ 2 := by norm_num
    _ ≤ 2 ^ (32 - p) := Nat.pow_le_pow_right (by norm_num) h2
  obtain ⟨m, hm⟩ : ∃ m, blockSize p = m + 2 := ⟨blockSize p - 2, by omega⟩
  have hbc : broadcastAddr a p = networkAddr a p + m + 1 := by
    unfold broadcastAddr
    omega
  have h1 : (!decide (networkAddr a p = networkAddr a p) &&
      !decide (networkAddr a p = broadcastAddr a p)) = false := by
    simp
  have h2 : List.filter
      (fun x => !decide (x = networkAddr a p) && !decide (x = broadcastAddr a p))
      (List.range' (networkAddr a p + 1) m)
      = List.range' (networkAddr a p + 1) m := by
    refine List.filter_eq_self.2 ?_
    intro x hx
    rw [List.mem_range'_1] at hx
    rw [hbc]
    simp only [Bool.and_eq_true, Bool.not_eq_true', decide_eq_false_iff_not]
    omega
  have h3 : (!decide (networkAddr a p + 1 + m = networkAddr a p) &&
      !decide (networkAddr a p + 1 + m = broadcastAddr a p)) = false := by
    have he : networkAddr a p + 1 + m = broadcastAddr a p := by rw [hbc]; omega
    simp [he]
  have h4 : List.filter
      (fun x => !decide (x = networkAddr a p) && !decide (x = broadcastAddr a p))
      [networkAddr a p + 1 + m] = [] := by
    simp only [List.filter_cons, h3, Bool.false_eq_true, if_false, List.filter_nil]
  rw [show blockAddrs a p = List.range' (networkAddr a p) (blockSize p) from rfl, hm,
    List.range'_succ,
    List.range'_1_concat (networkAddr a p + 1) m,
    List.filter_cons, List.filter_append, h1, h2, h4]
  have hbs : blockSize p = 2 ^ (32 - p) := rfl
  simp [List.length_range']
  omega

/-- Witness for C5 at the concrete block 192.168.1.0/30. -/
theorem expand_network_host_count_witness :
    (expand_network 3232235776 30).length = 2 := by
  have h := expand_network_host_count 3232235776 30 (by norm_num) (by norm_num)
  simpa using h

/-- C8: for every pair of valid IPv4 literals, `expand_ip_range` enumerates
exactly the addresses of the inclusive interval between them, in ascending
order (`List.range'` starting at the smaller endpoint), swapping the
endpoints when the start address is numerically greater than the end. -/
theorem expand_ip_range_ascending (s e : PyStr) (a b : Nat)
    (hs : ipv4Parse? s = some a) (he : ipv4Parse? e = some b) :
    expand_ip_range s e =
      some ((List.range' (min a b) (max a b + 1 - min a b)).map ipv4Str) ∧
    ∀ x, x ∈ List.range' (min a b) (max a b + 1 - min a b) ↔
      min a b ≤ x ∧ x ≤ max a b := by
  constructor
  · simp only [expand_ip_range, hs, he]
    by_cases h : b < a
    · rw [if_pos h, Nat.min_eq_right (le_of_lt h), Nat.max_eq_left (le_of_lt h)]
    · rw [if_neg h, Nat.min_eq_left (by omega), Nat.max_eq_right (by omega)]
  · intro x
    rw [List.mem_range'_1]
    constructor <;> intro hx <;> omega

/-- Witness for C8: the reversed-endpoint example from the specification. -/
theorem expand_ip_range_ascending_witness :
    expand_ip_range (chars "10.0.0.5") (chars "10.0.0.2") =
      some [chars "10.0.0.2", chars "10.0.0.3", chars "10.0.0.4", chars "10.0.0.5"] := by
  have h := expand_ip_range_ascending (chars "10.0.0.5") (chars "10.0.0.2")
    167772165 167772162 (by decide) (by decide)
  rw [h.1]
  decide

/-- C10: `parse_ports` drops empty and whitespace-only tokens before
parsing (so leading, trailing, or repeated commas are harmless), and the
empty specification parses to the empty list without an error. -/
theorem parse_ports_ignores_empty_tokens :
    (∀ pre post ws, pyStrip ws = [] →
      parsePortsTokens (stripFilter (pre ++ ws :: post)) =
        parsePortsTokens (stripFilter (pre ++ post))) ∧
    parse_ports (chars "22,,80,") = parse_ports (chars "22,80") ∧
    parse_ports (chars "") = some [] := by
  refine ⟨?_, by decide, by decide⟩
  intro pre post ws hws
  have h : stripFilter (pre ++ ws :: post) = stripFilter (pre ++ post) := by
    unfold stripFilter
    simp [List.map_append, List.filter_append, hws]
  rw [h]

/-- Witness for C10's general statement at a concrete whitespace token. -/
theorem parse_ports_ignores_empty_tokens_witness :
    parsePortsTokens (stripFilter ([chars "22"] ++ chars " " :: [chars "80"])) =
      parsePortsTokens (stripFilter ([chars "22"] ++ [chars "80"])) :=
  parse_ports_ignores_empty_tokens.1 [chars "22"] [chars "80"] (chars " ") (by decide)

/-- C3: `parse_ports` fails exactly when some (stripped, nonempty) token is
unparseable as an integer or range; values outside `(0, 65535]` are
silently discarded — the returned ports are exactly the collected values in
bounds, and deleting an out-of-bounds single-value token changes nothing. -/
theorem parse_ports_error_and_bounds :
    (∀ cs, parse_ports cs = none ↔ ∃ t ∈ activeToks cs, tokVal? t = none) ∧
    (∀ cs vals, collectVals (activeToks cs) = some vals →
      parse_ports cs = some (postprocessPorts vals) ∧
      ∀ n : Nat, n ∈ postprocessPorts vals ↔
        ((n : Int) ∈ vals ∧ 0 < n ∧ n ≤ 65535)) ∧
    (∀ pre post t v, tokVal? t = some [v] → portInBounds v = false →
      parsePortsTokens (pre ++ t :: post) = parsePortsTokens (pre ++ post)) := by
  refine ⟨?_, ?_, ?_⟩
  · intro cs
    simp only [parse_ports, parsePortsTokens, Option.map_eq_none']
    exact collectVals_eq_none _
  · intro cs vals h
    constructor
    · unfold parse_ports parsePortsTokens
      rw [h]
      rfl
    · exact mem_postprocessPorts vals
  · intro pre post t v ht hv
    unfold parsePortsTokens
    cases h1 : collectVals pre with
    | none =>
      rw [collectVals_append, collectVals_append, h1]
      rfl
    | some xs =>
      cases h2 : collectVals post with
      | none =>
        have hcp : collectVals (t :: post) = none := by
          simp only [collectVals, ht, h2]
        rw [collectVals_append, collectVals_append, h1, hcp, h2]
      | some ys =>
        have hcp : collectVals (t :: post) = some ([v] ++ ys) := by
          simp only [collectVals, ht, h2]
        rw [collectVals_append, collectVals_append, h1, hcp, h2]
        simp only [Option.bind_some, Option.map_some']
        refine congrArg some (postprocessPorts_congr _ _ ?_)
        simp [List.filter_append, List.filter_cons, hv]

/-- Witness for C3: a non-numeric token errors; an out-of-range token is
silently dropped. -/
theorem parse_ports_error_and_bounds_witness :
    parsePortsTokens ([chars "22"] ++ chars "70000" :: [chars "80"]) =
      parsePortsTokens ([chars "22"] ++ [chars "80"]) :=
  parse_ports_error_and_bounds.2.2 [chars "22"] [chars "80"] (chars "70000") 70000
    (by decide) (by decide)

/-- C6: `parse_ports` is idempotent — joining a successful parse's sorted
output with commas and parsing again returns exactly the same port list. -/
theorem parse_ports_idempotent (cs : PyStr) (l : List Nat)
    (h : parse_ports cs = some l) :
    parse_ports (joinSep ',' (l.map pyStrNat)) = some l := by
  obtain ⟨hs, hn, hb⟩ := parse_ports_invariant cs l h
  cases l with
  | nil => decide
  | cons n l' =>
    have hdig : ∀ t ∈ (n :: l').map pyStrNat, t ≠ [] ∧ t.all Char.isDigit = true := by
      intro t ht
      rw [List.mem_map] at ht
      obtain ⟨m, _, rfl⟩ := ht
      exact ⟨pyStrNat_ne_nil m, pyStrNat_all_digits m⟩
    have hnc : ∀ t ∈ (n :: l').map pyStrNat, ',' ∉ t := by
      intro t ht hm
      obtain ⟨hne, hall⟩ := hdig t ht
      exact absurd (List.all_eq_true.1 hall ',' hm) (by decide)
    unfold parse_ports activeToks
    rw [splitOnChar_joinSep ',' _ (by simp) hnc, stripFilter_of_digits _ hdig]
    unfold parsePortsTokens
    rw [collectVals_map_pyStrNat, Option.map_some',
      postprocessPorts_canonical _ hs hn hb]

/-- Witness for C6 at a concrete parse. -/
theorem parse_ports_idempotent_witness :
    parse_ports (joinSep ',' ([22, 80].map pyStrNat)) = some [22, 80] :=
  parse_ports_idempotent (chars "22,80") [22, 80] (by decide)

/-- Counterexample to C1: a legal completion order (a permutation of the
task list) for which `scan_targets` returns an unsorted open-pairs list,
and `save_results` emits exactly that unsorted list. -/
theorem scan_results_sorted_counterexample :
    List.Perm [(chars "h", 2), (chars "h", 1)] (scanTasks [chars "h"] [1, 2]) ∧
    scan_targets [chars "h"] [1, 2] (fun _ _ => true) [(chars "h", 2), (chars "h", 1)] =
      [(chars "h", 2), (chars "h", 1)] ∧
    save_results [(chars "h", 2), (chars "h", 1)] (chars "csv") =
      some [(chars "h", 2), (chars "h", 1)] ∧
    ¬ List.Sorted pairLe [(chars "h", 2), (chars "h", 1)] := by
  refine ⟨?_, ?_, ?_, ?_⟩ <;> decide

/-- C1 (amended): `scan_targets` returns the open pairs in probe-completion
order and `save_results` emits CSV data rows and JSON records in exactly
that (possibly unsorted) order; only the console listing of `main` is
sorted by `(host, port)`. -/
theorem scan_results_ordering_amended :
    (∀ (hosts : List PyStr) (ports : List Nat) (isOpen : PyStr → Nat → Bool)
        (order : List (PyStr × Nat)),
      List.Perm order (scanTasks hosts ports) →
      scan_targets hosts ports isOpen order =
        order.filter (fun t => isOpen t.1 t.2)) ∧
    (∀ l : List (PyStr × Nat),
      save_results l (chars "csv") = some l ∧
      save_results l (chars "json") = some l ∧
      List.Sorted pairLe (consoleListing l) ∧
      List.Perm (consoleListing l) l) := by
  constructor
  · intro hosts ports isOpen order hperm
    unfold scan_targets
    by_cases hts : scanTasks hosts ports = []
    · rw [if_pos hts]
      have ho : order = [] := (hts ▸ hperm).eq_nil
      simp [ho]
    · rw [if_neg hts]
  · intro l
    refine ⟨rfl, ?_, List.sorted_insertionSort pairLe l, List.perm_insertionSort pairLe l⟩
    show (if chars "json" = chars "csv" then some l
      else if chars "json" = chars "json" then some l else none) = some l
    rw [if_neg (by decide), if_pos rfl]

/-- Witness for C1's amended statement at a concrete completion order. -/
theorem scan_results_ordering_amended_witness :
    scan_targets [chars "h"] [1, 2] (fun _ _ => true) [(chars "h", 1), (chars "h", 2)] =
      List.filter (fun t => (fun _ _ => true) t.1 t.2)
        [(chars "h", 1), (chars "h", 2)] :=
  scan_results_ordering_amended.1 [chars "h"] [1, 2] (fun _ _ => true)
    [(chars "h", 1), (chars "h", 2)] (by decide)

/-- Counterexample to C2: a hosts file with a repeated line makes the task
list repeat a pair, and the open-pairs result then contains duplicates. -/
theorem scan_task_universe_counterexample :
    load_hosts_from_file (chars "10.0.0.1\n10.0.0.1") =
      [chars "10.0.0.1", chars "10.0.0.1"] ∧
    scanTasks (load_hosts_from_file (chars "10.0.0.1\n10.0.0.1")) [22] =
      [(chars "10.0.0.1", 22), (chars "10.0.0.1", 22)] ∧
    ¬ (scanTasks (load_hosts_from_file (chars "10.0.0.1\n10.0.0.1")) [22]).Nodup ∧
    ¬ (scan_targets (load_hosts_from_file (chars "10.0.0.1\n10.0.0.1")) [22]
        (fun _ _ => true)
        (scanTasks (load_hosts_from_file (chars "10.0.0.1\n10.0.0.1")) [22])).Nodup := by
  refine ⟨?_, ?_, ?_, ?_⟩ <;> decide

/-- C2 (amended): the task list is exactly the Cartesian product
`hosts ×ˢ ports` with `N × M` entries; when the host sequence has no
duplicates (as with CIDR or IP-range expansion — a hosts file may repeat
entries) every pair is attempted at most once and the open-pairs result has
no duplicate pairs, all of them drawn from the task universe. -/
theorem scan_task_universe_amended (hosts : List PyStr) (ports : List Nat)
    (isOpen : PyStr → Nat → Bool) (order : List (PyStr × Nat))
    (hh : hosts.Nodup) (hp : ports.Nodup)
    (hperm : List.Perm order (scanTasks hosts ports)) :
    scanTasks hosts ports = hosts ×ˢ ports ∧
    (scanTasks hosts ports).length = hosts.length * ports.length ∧
    (scanTasks hosts ports).Nodup ∧
    (scan_targets hosts ports isOpen order).Nodup ∧
    ∀ t ∈ scan_targets hosts ports isOpen order, t ∈ scanTasks hosts ports := by
  have hprod : scanTasks hosts ports = hosts ×ˢ ports := rfl
  have hlen : ∀ hs : List PyStr, (scanTasks hs ports).length = hs.length * ports.length := by
    intro hs
    induction hs with
    | nil => simp [scanTasks]
    | cons x t ih =>
      rw [show scanTasks (x :: t) ports
          = ports.map (fun p => (x, p)) ++ scanTasks t ports from rfl,
        List.length_append, List.length_map, ih, List.length_cons, Nat.succ_mul]
      omega
  have htn : (scanTasks hosts ports).Nodup := hprod ▸ hh.product hp
  have hon : order.Nodup := hperm.symm.nodup htn
  have hsn : (scan_targets hosts ports isOpen order).Nodup := by
    unfold scan_targets
    by_cases hts : scanTasks hosts ports = []
    · simp [hts]
    · rw [if_neg hts]
      exact hon.filter _
  refine ⟨hprod, hlen hosts, htn, hsn, ?_⟩
  intro t ht
  unfold scan_targets at ht
  by_cases hts : scanTasks hosts ports = []
  · rw [if_pos hts] at ht
    cases ht
  · rw [if_neg hts] at ht
    exact hperm.mem_iff.1 (List.mem_filter.1 ht).1

/-- Witness for C2's amended statement at a concrete duplicate-free scan. -/
theorem scan_task_universe_amended_witness :
    (scan_targets [chars "a", chars "b"] [1] (fun _ _ => true)
      [(chars "b", 1), (chars "a", 1)]).Nodup :=
  (scan_task_universe_amended [chars "a", chars "b"] [1] (fun _ _ => true)
    [(chars "b", 1), (chars "a", 1)] (by decide) (by decide) (by decide)).2.2.2.1

theorem takeWhile_append_stop (p : Char → Bool) (xs : PyStr) (c : Char) (ys : PyStr)
    (hxs : ∀ x ∈ xs, p x = true) (hc : p c = false) :
    (xs ++ c :: ys).takeWhile p = xs := by
  induction xs with
  | nil => simp [List.takeWhile_cons, hc]
  | cons x t ih =>
    have hx : p x = true := hxs x (List.mem_cons_self x t)
    simp [List.takeWhile_cons, hx,
      ih (fun y hy => hxs y (List.mem_cons_of_mem x hy))]

theorem dropWhile_append_stop (p : Char → Bool) (xs : PyStr) (c : Char) (ys : PyStr)
    (hxs : ∀ x ∈ xs, p x = true) (hc : p c = false) :
    (xs ++ c :: ys).dropWhile p = c :: ys := by
  induction xs with
  | nil => simp [List.dropWhile_cons, hc]
  | cons x t ih =>
    have hx : p x = true := hxs x (List.mem_cons_self x t)
    simp [List.dropWhile_cons, hx,
      ih (fun y hy => hxs y (List.mem_cons_of_mem x hy))]

theorem activeToks_single (t : PyStr) (hne : t ≠ []) (hnc : ',' ∉ t)
    (hnw : ∀ c ∈ t, isPySpace c = false) : activeToks t = [t] := by
  unfold activeToks stripFilter
  rw [splitOnChar_of_not_mem ',' t hnc]
  simp [pyStrip_eq_self t hnw, hne]

theorem tokVal?_digit_range (x y : PyStr) (hx : x ≠ []) (hy : y ≠ [])
    (hdx : x.all Char.isDigit = true) (hdy : y.all Char.isDigit = true) :
    tokVal? (x ++ '-' :: y) =
      if ((digitsVal x : Nat) : Int) > ((digitsVal y : Nat) : Int)
      then some (inclRange (digitsVal y) (digitsVal x))
      else some (inclRange (digitsVal x) (digitsVal y)) := by
  have hcont : (x ++ '-' :: y).contains '-' = true := by simp
  have htw : (x ++ '-' :: y).takeWhile (fun c => c ≠ '-') = x :=
    takeWhile_append_stop _ x '-' y
      (fun c hc => by
        simp [isDigit_ne c '-' (List.all_eq_true.1 hdx c hc) (by decide)])
      (by decide)
  have hdw : (x ++ '-' :: y).dropWhile (fun c => c ≠ '-') = '-' :: y :=
    dropWhile_append_stop _ x '-' y
      (fun c hc => by
        simp [isDigit_ne c '-' (List.all_eq_true.1 hdx c hc) (by decide)])
      (by decide)
  simp only [tokVal?, hcont, if_true, htw, hdw, List.tail_cons,
    pyInt?_of_digits x hx hdx, pyInt?_of_digits y hy hdy]

/-- Counterexample to C7 as universally stated: for the integer tokens `5`
and `-3`, the range token `5--3` parses (to ports 1..5) while its reversal
`-3-5` raises, because splitting at the first `-` leaves an empty left
part; so `a-b` and `b-a` do not always agree. -/
theorem range_token_swap_counterexample :
    parse_ports (chars "5--3") = some [1, 2, 3, 4, 5] ∧
    parse_ports (chars "-3-5") = none ∧
    parse_ports (chars "5--3") ≠ parse_ports (chars "-3-5") := by
  refine ⟨?_, ?_, ?_⟩ <;> decide

/-- C7 (amended): for nonnegative (digit-only) integer tokens `a` and `b`,
parsing the range token `a-b` yields the same port set as parsing `b-a`
(the reversed range is normalised by swapping its endpoints); in particular
`parse_ports "80-22"` equals `parse_ports "22-80"`. -/
theorem range_token_swap_amended (a b : PyStr) (ha : a ≠ []) (hb : b ≠ [])
    (hda : a.all Char.isDigit = true) (hdb : b.all Char.isDigit = true) :
    parse_ports (a ++ '-' :: b) = parse_ports (b ++ '-' :: a) := by
  have e1 := tokVal?_digit_range a b ha hb hda hdb
  have e2 := tokVal?_digit_range b a hb ha hdb hda
  have etok : tokVal? (a ++ '-' :: b) = tokVal? (b ++ '-' :: a) := by
    rw [e1, e2]
    rcases lt_trichotomy (digitsVal a) (digitsVal b) with h | h | h
    · rw [if_neg (by omega), if_pos (by omega)]
    · rw [if_neg (by omega), if_neg (by omega), h]
    · rw [if_pos (by omega), if_neg (by omega)]
  have hat : ∀ (x y : PyStr), x ≠ [] →
      x.all Char.isDigit = true → y.all Char.isDigit = true →
      activeToks (x ++ '-' :: y) = [x ++ '-' :: y] := by
    intro x y hx hdx hdy
    apply activeToks_single
    · simp
    · intro hm
      rcases List.mem_append.1 hm with h | h
      · exact absurd (List.all_eq_true.1 hdx ',' h) (by decide)
      · rcases List.mem_cons.1 h with h' | h'
        · exact absurd h' (by decide)
        · exact absurd (List.all_eq_true.1 hdy ',' h') (by decide)
    · intro c hc
      rcases List.mem_append.1 hc with h | h
      · exact isPySpace_eq_false_of_isDigit c (List.all_eq_true.1 hdx c h)
      · rcases List.mem_cons.1 h with rfl | h'
        · decide
        · exact isPySpace_eq_false_of_isDigit c (List.all_eq_true.1 hdy c h')
  unfold parse_ports
  rw [hat a b ha hda hdb, hat b a hb hdb hda]
  unfold parsePortsTokens
  have hc1 : collectVals [a ++ '-' :: b] = collectVals [b ++ '-' :: a] := by
    simp only [collectVals, etok]
  rw [hc1]

/-- Witness for C7's amended statement: the `80-22` / `22-80` example. -/
theorem range_token_swap_amended_witness :
    parse_ports (chars "80-22") = parse_ports (chars "22-80") := by
  have e1 : chars "80-22" = chars "80" ++ '-' :: chars "22" := by decide
  have e2 : chars "22-80" = chars "22" ++ '-' :: chars "80" := by decide
  rw [e1, e2]
  exact range_token_swap_amended (chars "80") (chars "22") (by decide) (by decide)
    (by decide) (by decide)
